import Mathlib

/-!
Verification of the TexNet image-texture feature core
(`texNet/image_features.py` and `texNet/feature_lists.py`).

The numerical core is shallowly embedded over `ℚ`:

* a 2-D co-occurrence matrix slice is `Mat n = Fin n → Fin n → ℚ`;
* `compute_chi_sum` mirrors `ImageFeatures.compute_chi_sum` line by line
  (`row_matrix`, `col_matrix`, `matrix_rc_totals`, `expected_values`,
  then the guarded sum);
* `create_haralick` mirrors `ImageFeatures.create_haralick`; square roots
  (`energy = sqrt(asm)`, `stdev`, and the `1/sx/sy` factor of the
  correlation) are kept symbolic in the value type `HVal`, so that the
  development stays executable and entry-wise equalities of feature
  vectors remain decidable;
* the batch orchestrator `create_matrix_list` mirrors
  `FeaturesLists.create_matrix_list`, with the external `greycomatrix`
  builder abstracted as parameters `glcm` (raw counts) and `glcmNorm`
  (normalised), exactly as the specification treats it (a black box
  returning one 2-D slice per (distance, angle));
* the numpy call `np.divide(a, b, where := mask)` is modelled as a sum in
  which masked-out cells contribute `0`, which is the behaviour the
  code's own comment ("sum of all values where rows and columns sums are
  non zero") documents;
* IEEE-754 special values do not exist in `ℚ`; the small inductive type
  `FV` (finite / NaN / ±infinity values with IEEE propagation rules) is
  used where the behaviour of the code on a degenerate input hinges on
  them (the all-zero matrix, where `matrix.sum() = 0` makes the
  expectation matrix `0/0 = NaN`).
-/

namespace TexNet

/-- A square 2-D matrix slice of gray-level co-occurrence counts
(or probabilities), as handled by the scorer and the extractor. -/
abbrev Mat (n : ℕ) := Fin n → Fin n → ℚ

/-- `matrix.sum()`: the total sum of the matrix. -/
def matrixSum {n : ℕ} (M : Mat n) : ℚ := ∑ i, ∑ j, M i j

/-- `matrix.sum(axis=0)`: column totals (summing down each column `j`). -/
def sumAxis0 {n : ℕ} (M : Mat n) (j : Fin n) : ℚ := ∑ i, M i j

/-- `matrix.sum(axis=1)`: row totals (summing across each row `i`). -/
def sumAxis1 {n : ℕ} (M : Mat n) (i : Fin n) : ℚ := ∑ j, M i j

/-- `row_matrix = np.repeat(matrix.sum(axis=0), n).reshape(n, n)`:
`np.repeat` repeats each element consecutively (`[a, b] ↦ [a, a, b, b]`),
so after the reshape row `i` is constantly the `i`-th column total:
cell `(i, j)` holds the total of column `i`. -/
def row_matrix {n : ℕ} (M : Mat n) (i _j : Fin n) : ℚ := sumAxis0 M i

/-- `col_matrix = np.repeat(matrix.sum(axis=1), n).reshape(n, n).T`:
before the transpose row `i` is constantly the `i`-th row total, so
after the transpose cell `(i, j)` holds the total of row `j`. -/
def col_matrix {n : ℕ} (M : Mat n) (_i j : Fin n) : ℚ := sumAxis1 M j

/-- `matrix_rc_totals = (row_matrix * col_matrix) / matrix.sum()`:
the matrix the code divides by.  Because of `np.repeat`'s element-wise
repetition this is `col_total[i] · row_total[j] / total_sum` — the
TRANSPOSE of the documented independence expectation
`E[i,j] = row_total[i] · col_total[j] / total_sum`. -/
def matrix_rc_totals {n : ℕ} (M : Mat n) (i j : Fin n) : ℚ :=
  row_matrix M i j * col_matrix M i j / matrixSum M

/-- `expected_values = (matrix - matrix_rc_totals) ** 2` (the squared
deviations; the variable name is the source's own). -/
def expected_values {n : ℕ} (M : Mat n) (i j : Fin n) : ℚ :=
  (M i j - matrix_rc_totals M i j) ^ 2

/-- `ImageFeatures.compute_chi_sum`:
`np.sum(np.divide(expected_values, matrix_rc_totals,
where=(matrix_rc_totals != 0)))`, with masked-out cells contributing
zero. -/
def compute_chi_sum {n : ℕ} (M : Mat n) : ℚ :=
  ∑ i, ∑ j,
    if matrix_rc_totals M i j ≠ 0 then
      expected_values M i j / matrix_rc_totals M i j
    else 0

/-- Spec §4.1: `row_total[i]`, the sum of row `i`. -/
def rowTotal {n : ℕ} (M : Mat n) (i : Fin n) : ℚ := ∑ j, M i j

/-- Spec §4.1: `col_total[j]`, the sum of column `j`. -/
def colTotal {n : ℕ} (M : Mat n) (j : Fin n) : ℚ := ∑ i, M i j

/-- Spec §4.1: the independence expectation
`E[i,j] = (row_total[i] * col_total[j]) / total_sum`. -/
def Emat {n : ℕ} (M : Mat n) (i j : Fin n) : ℚ :=
  rowTotal M i * colTotal M j / matrixSum M

/-- Spec §4.1, written from the specification's words: the sum of
`(M[i,j] - E[i,j])^2 / E[i,j]` over all cells with `E[i,j] ≠ 0`, cells
with `E[i,j] = 0` contributing exactly zero. -/
def chiSumSpec {n : ℕ} (M : Mat n) : ℚ :=
  ∑ i, ∑ j,
    if Emat M i j = 0 then 0
    else (M i j - Emat M i j) ^ 2 / Emat M i j

/-- Pointwise scaling `c * M` of a count matrix. -/
def scaleM {n : ℕ} (c : ℚ) (M : Mat n) : Mat n := fun i j => c * M i j

/-! ### The Haralick feature extractor (`ImageFeatures.create_haralick`) -/

/-- The value of one Haralick feature.  The extractor's arithmetic is
exact rational arithmetic except for three square roots
(`energy = sqrt(asm)`, `stdev = sqrt(...)` and the factor `1/sx/sy` of
the correlation, `sx = sqrt(vx)`, `sy = sqrt(vy)`); those are kept
symbolic so that feature vectors stay decidably comparable:
`rat x` denotes the rational `x`, `sqrtVal x` denotes `√x`, and
`divSqrt t v` denotes `t / √v` (for the correlation,
`t / (√vx * √vy) = t / √(vx * vy)` since variances are nonnegative). -/
inductive HVal where
  | rat (x : ℚ)
  | sqrtVal (x : ℚ)
  | divSqrt (t : ℚ) (v : ℚ)
deriving DecidableEq

/-- The index value `i` of the mesh grid `I, J = np.ogrid[0:n, 0:n]`,
as a rational. -/
def fq {n : ℕ} (i : Fin n) : ℚ := ((i : ℕ) : ℚ)

/-- `homo_weight = 1. / (1. + (I - J) ** 2)`. -/
def homo_weight {n : ℕ} (i j : Fin n) : ℚ := 1 / (1 + (fq i - fq j) ^ 2)

/-- `homo = np.sum(matrix * homo_weight)`. -/
def homo {n : ℕ} (M : Mat n) : ℚ := ∑ i, ∑ j, M i j * homo_weight i j

/-- `con_weight = (I - J) ** 2`; `contrast = np.sum(matrix * con_weight)`. -/
def contrastv {n : ℕ} (M : Mat n) : ℚ := ∑ i, ∑ j, M i j * (fq i - fq j) ^ 2

/-- `asm = np.sum(matrix ** 2)` (the angular second moment). -/
def asmv {n : ℕ} (M : Mat n) : ℚ := ∑ i, ∑ j, (M i j) ^ 2

/-- `p = matrix / matrix.sum()`. -/
def pnorm {n : ℕ} (M : Mat n) (i j : Fin n) : ℚ := M i j / matrixSum M

/-- `px = p.sum(0)` (summing over axis 0: `px[j] = Σ_i p[i,j]`). -/
def px {n : ℕ} (M : Mat n) (j : Fin n) : ℚ := ∑ i, pnorm M i j

/-- `py = p.sum(1)` (`py[i] = Σ_j p[i,j]`). -/
def py {n : ℕ} (M : Mat n) (i : Fin n) : ℚ := ∑ j, pnorm M i j

/-- `ux = np.dot(px, k)` where `k = np.arange(n)`. -/
def ux {n : ℕ} (M : Mat n) : ℚ := ∑ j, px M j * fq j

/-- `uy = np.dot(py, k)`. -/
def uy {n : ℕ} (M : Mat n) : ℚ := ∑ i, py M i * fq i

/-- `vx = np.dot(px, k ** 2) - ux ** 2`. -/
def vx {n : ℕ} (M : Mat n) : ℚ := (∑ j, px M j * fq j ^ 2) - ux M ^ 2

/-- `vy = np.dot(py, k ** 2) - uy ** 2`. -/
def vy {n : ℕ} (M : Mat n) : ℚ := (∑ i, py M i * fq i ^ 2) - uy M ^ 2

/-- `np.dot(ij.ravel(), pravel)` where `ij = I * J`:
the raw second joint moment `Σ_{i,j} i·j·p[i,j]`. -/
def ijMoment {n : ℕ} (M : Mat n) : ℚ := ∑ i, ∑ j, fq i * fq j * pnorm M i j

/-- The correlation entry of the feature vector.
Source: `if sx == 0.0 or sy == 0.0: corr = 1.0 else:
corr = (1. / sx / sy) * (np.dot(ij.ravel(), pravel) - ux * uy)`.
Since `sx = sqrt(vx)` and `sy = sqrt(vy)` with `vx, vy` nonnegative
variances, the float test `sx == 0.0 or sy == 0.0` holds exactly when
`vx = 0 ∨ vy = 0`, and `(1/sx/sy) * t = t / √(vx·vy)`. -/
def corrEntry {n : ℕ} (M : Mat n) : HVal :=
  if vx M = 0 ∨ vy M = 0 then HVal.rat 1
  else HVal.divSqrt (ijMoment M - ux M * uy M) (vx M * vy M)

/-- `px_plus_y[k] = Σ_{i+j=k} matrix[i,j]` (built in the source by the
masked sums over `tmp1`; note it aggregates the raw input `matrix`,
not `p`). -/
def px_plus_y {n : ℕ} (M : Mat n) (k : ℕ) : ℚ :=
  ∑ i : Fin n, ∑ j : Fin n, if (i : ℕ) + (j : ℕ) = k then M i j else 0

/-- `px_minus_y[k] = Σ_{|i-j|=k} matrix[i,j]` — computed by the source
but never used in the returned feature vector (dead computation,
spec §4.3 / §9). -/
def px_minus_y {n : ℕ} (M : Mat n) (k : ℕ) : ℚ :=
  ∑ i : Fin n, ∑ j : Fin n,
    if (i : ℕ) - (j : ℕ) + ((j : ℕ) - (i : ℕ)) = k then M i j else 0

/-- `mean = np.dot(tk, px_plus_y)` where `tk = np.arange(2n)`. -/
def meanv {n : ℕ} (M : Mat n) : ℚ :=
  ∑ k ∈ Finset.range (2 * n), (k : ℚ) * px_plus_y M k

/-- The radicand of `stdev = np.sqrt(np.dot(tk ** 2, px_plus_y) - mean ** 2)`. -/
def stdevSq {n : ℕ} (M : Mat n) : ℚ :=
  (∑ k ∈ Finset.range (2 * n), (k : ℚ) ^ 2 * px_plus_y M k) - meanv M ^ 2

/-- `shade_weight = (I + J - ux - uy) ** 3`;
`cls_shade = np.sum(matrix * shade_weight)`. -/
def cls_shade {n : ℕ} (M : Mat n) : ℚ :=
  ∑ i, ∑ j, M i j * (fq i + fq j - ux M - uy M) ^ 3

/-- `prom_weight = (I + J - ux - uy) ** 4`;
`cls_prom = np.sum(matrix * prom_weight)`. -/
def cls_prom {n : ℕ} (M : Mat n) : ℚ :=
  ∑ i, ∑ j, M i j * (fq i + fq j - ux M - uy M) ^ 4

/-- `ImageFeatures.create_haralick`: the returned 9-vector
`np.array([homo, asm, contrast, energy, corr, mean, stdev, cls_shade,
cls_prom])`. -/
def create_haralick {n : ℕ} (M : Mat n) : List HVal :=
  [HVal.rat (homo M), HVal.rat (asmv M), HVal.rat (contrastv M),
   HVal.sqrtVal (asmv M), corrEntry M, HVal.rat (meanv M),
   HVal.sqrtVal (stdevSq M), HVal.rat (cls_shade M), HVal.rat (cls_prom M)]

/-- Spec §4.3: `homogeneity = Σ matrix[i,j] / (1 + (i-j)^2)`, written in
the specification's division form (the source multiplies by the
precomputed weight `1/(1+(i-j)^2)` instead). -/
def homogeneitySpec {n : ℕ} (M : Mat n) : ℚ :=
  ∑ i, ∑ j, M i j / (1 + (fq i - fq j) ^ 2)

/-- The transpose of a matrix slice. -/
def transposeM {n : ℕ} (M : Mat n) : Mat n := fun i j => M j i

/-! ### IEEE-754 special values

The `ℚ` embedding above idealises numpy's float64 arithmetic: it is
exact and its division is total.  That idealisation is inadequate in
exactly one place: `compute_chi_sum` divides by `matrix.sum()` when it
forms `matrix_rc_totals`, and on an all-zero matrix this is `0/0`,
which IEEE-754 evaluates to NaN (numpy emits a RuntimeWarning and
continues).  `FV` models float64 values as a rational together with the
three special values, with the IEEE propagation rules for the
operations `compute_chi_sum` performs. -/
inductive FV where
  | fin (q : ℚ)
  | pinf
  | ninf
  | nan
deriving DecidableEq

/-- IEEE negation. -/
def FV.neg : FV → FV
  | .fin q => .fin (-q)
  | .pinf => .ninf
  | .ninf => .pinf
  | .nan => .nan

/-- IEEE addition (NaN propagates; `+∞ + -∞ = NaN`). -/
def FV.add : FV → FV → FV
  | .nan, _ => .nan
  | _, .nan => .nan
  | .fin a, .fin b => .fin (a + b)
  | .pinf, .ninf => .nan
  | .ninf, .pinf => .nan
  | .pinf, _ => .pinf
  | .ninf, _ => .ninf
  | .fin _, .pinf => .pinf
  | .fin _, .ninf => .ninf

/-- IEEE subtraction. -/
def FV.sub (x y : FV) : FV := x.add y.neg

/-- IEEE multiplication (NaN propagates; `±∞ * 0 = NaN`). -/
def FV.mul : FV → FV → FV
  | .nan, _ => .nan
  | _, .nan => .nan
  | .fin a, .fin b => .fin (a * b)
  | .pinf, .pinf => .pinf
  | .pinf, .ninf => .ninf
  | .ninf, .pinf => .ninf
  | .ninf, .ninf => .pinf
  | .pinf, .fin b => if b = 0 then .nan else if 0 < b then .pinf else .ninf
  | .ninf, .fin b => if b = 0 then .nan else if 0 < b then .ninf else .pinf
  | .fin a, .pinf => if a = 0 then .nan else if 0 < a then .pinf else .ninf
  | .fin a, .ninf => if a = 0 then .nan else if 0 < a then .ninf else .pinf

/-- IEEE division (`0/0 = NaN`, `a/0 = ±∞` for `a ≠ 0` with `0 = +0`,
`±∞/±∞ = NaN`, `a/±∞ = 0`). -/
def FV.div : FV → FV → FV
  | .nan, _ => .nan
  | _, .nan => .nan
  | .fin a, .fin b =>
      if b = 0 then (if a = 0 then .nan else if 0 < a then .pinf else .ninf)
      else .fin (a / b)
  | .fin _, .pinf => .fin 0
  | .fin _, .ninf => .fin 0
  | .pinf, .fin b => if 0 ≤ b then .pinf else .ninf
  | .ninf, .fin b => if 0 ≤ b then .ninf else .pinf
  | .pinf, _ => .nan
  | .ninf, _ => .nan

/-- numpy's `x != 0` elementwise test: NaN and the infinities compare
unequal to zero. -/
def FV.neZero : FV → Bool
  | .fin a => a ≠ 0
  | _ => true

/-- `np.sum` of a list of float values (left fold of IEEE addition,
starting from `0`; NaN absorbs regardless of order). -/
def FV.sumList (l : List FV) : FV := l.foldl FV.add (.fin 0)

/-- A float-valued matrix slice. -/
abbrev FMat (n : ℕ) := Fin n → Fin n → FV

/-- Row-major flattening of an `n × n` float matrix, as `np.sum` scans it. -/
def fmatCells {n : ℕ} (M : FMat n) : List FV :=
  (List.finRange n).flatMap fun i => (List.finRange n).map fun j => M i j

/-- `ImageFeatures.compute_chi_sum` under float64 semantics: the same
computation as `compute_chi_sum`, with every arithmetic operation
interpreted in `FV`. -/
def compute_chi_sum_float {n : ℕ} (M : FMat n) : FV :=
  let total := FV.sumList (fmatCells M)
  let rowm : Fin n → Fin n → FV := fun i _ =>
    FV.sumList ((List.finRange n).map fun k => M k i)
  let colm : Fin n → Fin n → FV := fun _ j =>
    FV.sumList ((List.finRange n).map fun k => M j k)
  let rc : Fin n → Fin n → FV := fun i j =>
    FV.div (FV.mul (rowm i j) (colm i j)) total
  let ev : Fin n → Fin n → FV := fun i j =>
    FV.mul (FV.sub (M i j) (rc i j)) (FV.sub (M i j) (rc i j))
  FV.sumList (fmatCells (fun i j =>
    if (rc i j).neZero then FV.div (ev i j) (rc i j) else FV.fin 0))

/-! ### The batch orchestrator (`FeaturesLists.create_matrix_list`)

The external `skimage` builder `greycomatrix` is the specification's
declared black box (§1, §2): it is abstracted as two parameters,
`glcm img d a` — the raw-count 2-D slice `create_matrix(image,
distances, angles)[:, :, di, ai]` for distance `d` and angle `a` — and
`glcmNorm img d a` — the normalised single-offset slice
`create_matrix(image, [d], [a], symmetric=False, normalise=True)`.
All theorems about the orchestrator quantify over these builders. -/

/-- The score grid `chisum = np.zeros(shape=(D, A))` — allocated once
and shared across all images of the batch. -/
abbrev Grid (D A : ℕ) := Fin D → Fin A → ℚ

/-- `perms = list(itertools.product(np.arange(0, D), np.arange(0, A)))`:
all (distance-index, angle-index) pairs, distance-index outer —
the row-major order of the score grid. -/
def perms (D A : ℕ) : List (Fin D × Fin A) :=
  (List.finRange D).flatMap fun d => (List.finRange A).map fun a => (d, a)

/-- One comparison step of `np.argmax`: keep the incumbent unless the
new cell's value is strictly greater (so the first occurrence of the
maximum wins). -/
def argmaxStep {D A : ℕ} (g : Grid D A) (acc : Option (Fin D × Fin A))
    (p : Fin D × Fin A) : Option (Fin D × Fin A) :=
  match acc with
  | none => some p
  | some q => if g q.1 q.2 < g p.1 p.2 then some p else some q

/-- `np.unravel_index(np.argmax(chisum, axis=None), chisum.shape)`:
the row-major-first index of the maximum of the grid (`none` only for
an empty grid). -/
def argGrid {D A : ℕ} (g : Grid D A) : Option (Fin D × Fin A) :=
  (perms D A).foldl (argmaxStep g) none

/-- The state threaded through one image's scan of the candidate
offsets: the (shared) score grid, the current `max_chi` bookkeeping,
and the offset pairs appended to `inputs_list` so far. -/
structure ScanAcc (D A : ℕ) where
  grid : Grid D A
  maxChi : Option (Fin D × Fin A)
  out : List (ℤ × ℤ)

/-- `chisum[perm[0], perm[1]] = ...`: write value `v` into cell `p` of
the score grid. -/
def writeCell {D A : ℕ} (g : Grid D A) (p : Fin D × Fin A) (v : ℚ) :
    Grid D A :=
  fun d a => if d = p.1 ∧ a = p.2 then v else g d a

/-- One iteration of `for i, perm in enumerate(perms)`: write the
chi-square score of slice `(d, a)` into the grid, recompute the argmax
of the whole grid, and append the corresponding (distance, angle) pair
to `inputs_list`. -/
def scanStep {α : Type*} {n D A : ℕ} (glcm : α → ℤ → ℤ → Mat n)
    (distances : Fin D → ℤ) (angles : Fin A → ℤ) (img : α)
    (acc : ScanAcc D A) (p : Fin D × Fin A) : ScanAcc D A :=
  match argGrid (writeCell acc.grid p
      (compute_chi_sum (glcm img (distances p.1) (angles p.2)))) with
  | some m =>
      ⟨writeCell acc.grid p
          (compute_chi_sum (glcm img (distances p.1) (angles p.2))),
        some m, acc.out ++ [(distances m.1, angles m.2)]⟩
  | none =>
      ⟨writeCell acc.grid p
          (compute_chi_sum (glcm img (distances p.1) (angles p.2))),
        acc.maxChi, acc.out⟩

/-- The full scan of one image over all candidate offsets. -/
def processPerms {α : Type*} {n D A : ℕ} (glcm : α → ℤ → ℤ → Mat n)
    (distances : Fin D → ℤ) (angles : Fin A → ℤ) (img : α)
    (grid : Grid D A) (maxChi : Option (Fin D × Fin A)) : ScanAcc D A :=
  (perms D A).foldl (scanStep glcm distances angles img) ⟨grid, maxChi, []⟩

/-- The loop body of `for image in image_list`, recursing over the
remaining images: scan the candidates, then build the normalised
matrix at the final `max_chi` and its Haralick vector.  The result is
`none` when `max_chi` was never assigned (empty candidate grid on the
first image — a `NameError` in the source, undefined behaviour per
spec §4.4). -/
def runBatch {α : Type*} {n D A : ℕ} (glcm : α → ℤ → ℤ → Mat n)
    (glcmNorm : α → ℤ → ℤ → Mat n) (distances : Fin D → ℤ)
    (angles : Fin A → ℤ) :
    Grid D A → Option (Fin D × Fin A) → List α →
    Option (List (Mat n) × List (ℤ × ℤ) × List (List HVal))
  | _, _, [] => some ([], [], [])
  | grid, mc, img :: rest =>
    match (processPerms glcm distances angles img grid mc).maxChi with
    | none => none
    | some m =>
      match runBatch glcm glcmNorm distances angles
          (processPerms glcm distances angles img grid mc).grid
          (some m) rest with
      | none => none
      | some (ms, is, hs) =>
          some (glcmNorm img (distances m.1) (angles m.2) :: ms,
                (processPerms glcm distances angles img grid mc).out ++ is,
                create_haralick (glcmNorm img (distances m.1) (angles m.2)) :: hs)

/-- `FeaturesLists.create_matrix_list`: the batch orchestrator, started
on the zero-initialised score grid with `max_chi` unassigned. -/
def create_matrix_list {α : Type*} {n D A : ℕ} (glcm : α → ℤ → ℤ → Mat n)
    (glcmNorm : α → ℤ → ℤ → Mat n) (distances : Fin D → ℤ)
    (angles : Fin A → ℤ) (image_list : List α) :
    Option (List (Mat n) × List (ℤ × ℤ) × List (List HVal)) :=
  runBatch glcm glcmNorm distances angles (fun _ _ => 0) none image_list

/-- The per-image score grid: the chi-square score of each candidate
slice of one image (spec §4.2, step 2). -/
def scoreGrid {α : Type*} {n D A : ℕ} (glcm : α → ℤ → ℤ → Mat n)
    (distances : Fin D → ℤ) (angles : Fin A → ℤ) (img : α) : Grid D A :=
  fun d a => compute_chi_sum (glcm img (distances d) (angles a))

/-- The per-image optimal offset (spec §4.2's Selector, derived form):
the row-major-first argmax over the image's own score grid. -/
def bestIdx {α : Type*} {n D A : ℕ} (glcm : α → ℤ → ℤ → Mat n)
    (distances : Fin D → ℤ) (angles : Fin A → ℤ) (img : α) :
    Option (Fin D × Fin A) :=
  argGrid (scoreGrid glcm distances angles img)

/-- The per-image optimal normalised matrix (spec §4.2, step 4),
defined from the image alone, with no batch context. -/
def optMat {α : Type*} {n D A : ℕ} (glcm : α → ℤ → ℤ → Mat n)
    (glcmNorm : α → ℤ → ℤ → Mat n) (distances : Fin D → ℤ)
    (angles : Fin A → ℤ) (img : α) : Mat n :=
  match bestIdx glcm distances angles img with
  | some m => glcmNorm img (distances m.1) (angles m.2)
  | none => fun _ _ => 0

/-! ### Concrete instances used by witnesses and counterexamples -/

/-- The uniform 2×2 count matrix (all entries 1); its rows and columns
are exactly independent, so its chi-square score is 0. -/
def uniMat : Mat 2 := fun _ _ => 1

/-- The diagonal 2×2 count matrix with diagonal value `c`; its
chi-square score is `2c`. -/
def diagMat (c : ℚ) : Mat 2 := fun i j => if i = j then c else 0

/-- A concrete raw-count builder on two images (tokens `0` and `1`) and
two distances `1, 2` (any angle): image `0` scores `(0, 10)` on the two
candidates, image `1` scores `(5, 1)`. -/
def cGlcm : ℕ → ℤ → ℤ → Mat 2 := fun im d _ =>
  if im = 0 then (if d = 1 then uniMat else diagMat 5)
  else (if d = 1 then diagMat (5 / 2) else diagMat (1 / 2))

/-- A concrete normalised builder (its value is irrelevant to the
offset-trace comparison). -/
def cGlcmN : ℕ → ℤ → ℤ → Mat 2 := fun _ _ _ => fun _ _ => 0

/-- Concrete distances list `[1, 2]`. -/
def cDist : Fin 2 → ℤ := ![1, 2]

/-- Concrete angles list `[0]`. -/
def cAng : Fin 1 → ℤ := ![0]

end TexNet

namespace TexNet

/-! ## Theorems -/

lemma matrix_rc_totals_eq_Emat_swap {n : ℕ} (M : Mat n) (i j : Fin n) :
    matrix_rc_totals M i j = Emat M j i := by
  unfold matrix_rc_totals Emat row_matrix col_matrix sumAxis0 sumAxis1 rowTotal colTotal
  ring

/-- C1 (failing input): the code divides by the TRANSPOSE of the
claimed expectation — `np.repeat` repeats elements consecutively, so
`matrix_rc_totals[i,j] = col_total[i] · row_total[j] / total_sum =
E[j,i]` (first conjunct).  Consequently on the non-negative count
matrix `[[1,2],[3,4]]` (positive total 10) the code returns `15/14`,
while the claimed sum `Σ_{E≠0} (M-E)²/E` with
`E[i,j] = row_total[i]·col_total[j]/total` is `5/63`. -/
theorem compute_chi_sum_expectation_transposed :
    (∀ (n : ℕ) (M : Mat n) (i j : Fin n),
      matrix_rc_totals M i j = Emat M j i) ∧
    compute_chi_sum ![![(1 : ℚ), 2], ![3, 4]] = 15 / 14 ∧
    chiSumSpec ![![(1 : ℚ), 2], ![3, 4]] = 5 / 63 ∧
    (15 / 14 : ℚ) ≠ 5 / 63 := by
  refine ⟨fun n M i j => matrix_rc_totals_eq_Emat_swap M i j, ?_, ?_, by norm_num⟩
  · norm_num [compute_chi_sum, matrix_rc_totals, row_matrix, col_matrix,
      sumAxis0, sumAxis1, matrixSum, expected_values, Fin.sum_univ_two]
  · norm_num [chiSumSpec, Emat, rowTotal, colTotal, matrixSum,
      Fin.sum_univ_two]

/-- C2 (failing input): the matrix `[[1,1],[3,3]]` is exactly
independent — `M[i,j] = row_total[i] · col_total[j] / total` with
row totals `[2, 6]`, column totals `[4, 4]`, total `8` (first
conjunct) — yet `compute_chi_sum` returns `16/3`, not the claimed `0`,
because it divides by the transposed expectation
`col_total[i] · row_total[j] / total`. -/
theorem compute_chi_sum_independent_nonzero :
    (∀ i j, (![![(1 : ℚ), 1], ![3, 3]] : Mat 2) i j =
      rowTotal ![![(1 : ℚ), 1], ![3, 3]] i *
        colTotal ![![(1 : ℚ), 1], ![3, 3]] j /
        matrixSum ![![(1 : ℚ), 1], ![3, 3]]) ∧
    compute_chi_sum ![![(1 : ℚ), 1], ![3, 3]] = 16 / 3 ∧
    (16 / 3 : ℚ) ≠ 0 := by
  refine ⟨?_, ?_, by norm_num⟩
  · intro i j
    fin_cases i <;> fin_cases j <;>
      norm_num [rowTotal, colTotal, matrixSum, Fin.sum_univ_two]
  · norm_num [compute_chi_sum, matrix_rc_totals, row_matrix, col_matrix,
      sumAxis0, sumAxis1, matrixSum, expected_values, Fin.sum_univ_two]

lemma chi_scale_eq {n : ℕ} (c : ℚ) (M : Mat n) (hc : c ≠ 0) :
    compute_chi_sum (scaleM c M) = c * compute_chi_sum M := by
  have key : ∀ a b S : ℚ, c * a * (c * b) / (c * S) = c * (a * b / S) := by
    intro a b S
    rcases eq_or_ne S 0 with h | h
    · simp [h]
    · field_simp
      ring
  have hrc : ∀ i j, matrix_rc_totals (scaleM c M) i j = c * matrix_rc_totals M i j := by
    intro i j
    unfold matrix_rc_totals row_matrix col_matrix sumAxis0 sumAxis1 matrixSum scaleM
    simp only [← Finset.mul_sum]
    exact key _ _ _
  unfold compute_chi_sum
  rw [Finset.mul_sum]
  refine Finset.sum_congr rfl fun i _ => ?_
  rw [Finset.mul_sum]
  refine Finset.sum_congr rfl fun j _ => ?_
  have hev : expected_values (scaleM c M) i j = c ^ 2 * expected_values M i j := by
    simp only [expected_values, hrc]
    unfold scaleM
    ring
  by_cases h : matrix_rc_totals M i j = 0
  · simp [hrc, h]
  · have hcrc : c * matrix_rc_totals M i j ≠ 0 := mul_ne_zero hc h
    simp only [hrc, hev]
    rw [if_pos hcrc, if_pos h]
    field_simp
    ring

/-- C10: `compute_chi_sum` is positively homogeneous of degree 1 —
`compute_chi_sum (c·M) = c · compute_chi_sum M` for `c > 0` — and
consequently uniform rescaling leaves the score comparison (hence the
selected optimal offset) of any two candidate slices unchanged. -/
theorem chi_sum_homogeneous {n : ℕ} (c : ℚ) (M : Mat n) (hc : 0 < c)
    (hnn : ∀ i j, 0 ≤ M i j) (hS : 0 < matrixSum M) :
    compute_chi_sum (scaleM c M) = c * compute_chi_sum M ∧
    ∀ M2 : Mat n, (∀ i j, 0 ≤ M2 i j) → 0 < matrixSum M2 →
      (compute_chi_sum (scaleM c M) ≤ compute_chi_sum (scaleM c M2) ↔
        compute_chi_sum M ≤ compute_chi_sum M2) := by
  refine ⟨chi_scale_eq c M hc.ne', fun M2 _ _ => ?_⟩
  rw [chi_scale_eq c M hc.ne', chi_scale_eq c M2 hc.ne']
  exact mul_le_mul_left hc

/-- C3 (failing input): on the all-zero 2×2 matrix, the float64
semantics of `compute_chi_sum` produce NaN, not the 0 promised by the
specification and by the code's own comment: `matrix.sum()` is 0, so
every cell of `matrix_rc_totals` is `0/0 = NaN`; `NaN != 0` is true, so
the `where` guard skips nothing and the NaN propagates to the returned
sum.  (The guarded computation as documented — second conjunct, in the
exact-arithmetic model where the zero-denominator cells are skipped —
does return 0.) -/
theorem chi_sum_allzero_is_nan :
    compute_chi_sum_float (fun _ _ : Fin 2 => FV.fin 0) = FV.nan ∧
      compute_chi_sum (fun _ _ : Fin 2 => (0 : ℚ)) = 0 := by
  constructor
  · norm_num [compute_chi_sum_float, fmatCells, FV.sumList, FV.add, FV.div,
      FV.mul, FV.sub, FV.neg, FV.neZero, List.finRange, List.range,
      List.range.loop, List.flatMap]
  · norm_num [compute_chi_sum, matrix_rc_totals, row_matrix, col_matrix,
      sumAxis0, sumAxis1, matrixSum, expected_values, Fin.sum_univ_two]

/-- Witness for C10 at `c = 2` and the uniform 2×2 matrix. -/
theorem chi_sum_homogeneous_witness :
    ((0 : ℚ) < 2 ∧ (∀ i j, 0 ≤ uniMat i j) ∧ 0 < matrixSum uniMat) ∧
      compute_chi_sum (scaleM 2 uniMat) = 2 * compute_chi_sum uniMat :=
  ⟨⟨by norm_num, by decide, by norm_num [matrixSum, uniMat, Fin.sum_univ_two]⟩,
   (chi_sum_homogeneous 2 uniMat (by norm_num) (by decide)
     (by norm_num [matrixSum, uniMat, Fin.sum_univ_two])).1⟩

/-- C6: `create_haralick` returns exactly 9 scalars, in the fixed order
homogeneity, asm, contrast, energy (= √asm), correlation, mean,
stdev, cluster shade, cluster prominence — with the homogeneity entry
agreeing with the specification's division form
`Σ matrix[i,j] / (1 + (i-j)²)`. -/
theorem create_haralick_nine_features {n : ℕ} (M : Mat n) :
    create_haralick M =
      [HVal.rat (homogeneitySpec M), HVal.rat (asmv M),
       HVal.rat (contrastv M), HVal.sqrtVal (asmv M), corrEntry M,
       HVal.rat (meanv M), HVal.sqrtVal (stdevSq M),
       HVal.rat (cls_shade M), HVal.rat (cls_prom M)] ∧
    (create_haralick M).length = 9 := by
  refine ⟨?_, rfl⟩
  unfold create_haralick
  have h : homo M = homogeneitySpec M := by
    unfold homo homogeneitySpec homo_weight
    exact Finset.sum_congr rfl fun i _ => Finset.sum_congr rfl fun j _ =>
      mul_one_div _ _
  rw [h]

/-- C7: when a marginal standard deviation vanishes (`sx = √vx = 0` or
`sy = √vy = 0`, i.e. `vx = 0 ∨ vy = 0`), the correlation entry (index
4) of the returned vector is exactly the rational 1 — the guarded
branch, no division is performed. -/
theorem correlation_degenerate {n : ℕ} (M : Mat n)
    (h : vx M = 0 ∨ vy M = 0) :
    (create_haralick M)[4]? = some (HVal.rat 1) := by
  have h4 : (create_haralick M)[4]? = some (corrEntry M) := rfl
  rw [h4]
  unfold corrEntry
  rw [if_pos h]

/-- Witness for C7 at the one-hot matrix `[[1,0],[0,0]]` (both marginal
variances vanish). -/
theorem correlation_degenerate_witness :
    (vx ![![(1 : ℚ), 0], ![0, 0]] = 0 ∨ vy ![![(1 : ℚ), 0], ![0, 0]] = 0) ∧
      (create_haralick ![![(1 : ℚ), 0], ![0, 0]])[4]? = some (HVal.rat 1) := by
  have h : vx ![![(1 : ℚ), 0], ![0, 0]] = 0 ∨ vy ![![(1 : ℚ), 0], ![0, 0]] = 0 :=
    Or.inl (by norm_num [vx, ux, px, pnorm, matrixSum, fq, Fin.sum_univ_two])
  exact ⟨h, correlation_degenerate _ h⟩

lemma matrixSum_transpose {n : ℕ} (M : Mat n) :
    matrixSum (transposeM M) = matrixSum M := by
  unfold matrixSum transposeM
  exact Finset.sum_comm

lemma pnorm_transpose {n : ℕ} (M : Mat n) (i j : Fin n) :
    pnorm (transposeM M) i j = pnorm M j i := by
  unfold pnorm
  rw [matrixSum_transpose]
  rfl

lemma px_transpose {n : ℕ} (M : Mat n) (j : Fin n) :
    px (transposeM M) j = py M j := by
  unfold px py
  exact Finset.sum_congr rfl fun i _ => pnorm_transpose M i j

lemma py_transpose {n : ℕ} (M : Mat n) (i : Fin n) :
    py (transposeM M) i = px M i := by
  unfold px py
  exact Finset.sum_congr rfl fun j _ => pnorm_transpose M i j

lemma ux_transpose {n : ℕ} (M : Mat n) : ux (transposeM M) = uy M := by
  unfold ux uy
  exact Finset.sum_congr rfl fun j _ => by rw [px_transpose]

lemma uy_transpose {n : ℕ} (M : Mat n) : uy (transposeM M) = ux M := by
  unfold ux uy
  exact Finset.sum_congr rfl fun i _ => by rw [py_transpose]

lemma vx_transpose {n : ℕ} (M : Mat n) : vx (transposeM M) = vy M := by
  unfold vx vy
  rw [ux_transpose]
  congr 1
  exact Finset.sum_congr rfl fun j _ => by rw [px_transpose]

lemma vy_transpose {n : ℕ} (M : Mat n) : vy (transposeM M) = vx M := by
  unfold vx vy
  rw [uy_transpose]
  congr 1
  exact Finset.sum_congr rfl fun i _ => by rw [py_transpose]

lemma ijMoment_transpose {n : ℕ} (M : Mat n) :
    ijMoment (transposeM M) = ijMoment M := by
  unfold ijMoment
  simp only [pnorm_transpose]
  rw [Finset.sum_comm]
  exact Finset.sum_congr rfl fun a _ => Finset.sum_congr rfl fun b _ => by ring

lemma sum_transpose_weight2 {n : ℕ} (M : Mat n) (w w' : Fin n → Fin n → ℚ)
    (hw : ∀ i j, w i j = w' j i) :
    (∑ i, ∑ j, M j i * w i j) = ∑ i, ∑ j, M i j * w' i j := by
  rw [Finset.sum_comm]
  exact Finset.sum_congr rfl fun a _ => Finset.sum_congr rfl fun b _ => by
    rw [hw]

lemma homo_transpose {n : ℕ} (M : Mat n) : homo (transposeM M) = homo M := by
  unfold homo transposeM
  exact sum_transpose_weight2 M _ _ fun i j => by unfold homo_weight fq; ring

lemma contrastv_transpose {n : ℕ} (M : Mat n) :
    contrastv (transposeM M) = contrastv M := by
  unfold contrastv transposeM
  exact sum_transpose_weight2 M _ _ fun i j => by ring

lemma asmv_transpose {n : ℕ} (M : Mat n) : asmv (transposeM M) = asmv M := by
  unfold asmv transposeM
  exact Finset.sum_comm

lemma px_plus_y_transpose {n : ℕ} (M : Mat n) (k : ℕ) :
    px_plus_y (transposeM M) k = px_plus_y M k := by
  unfold px_plus_y transposeM
  rw [Finset.sum_comm]
  exact Finset.sum_congr rfl fun a _ => Finset.sum_congr rfl fun b _ =>
    if_congr (by omega) rfl rfl

lemma meanv_transpose {n : ℕ} (M : Mat n) : meanv (transposeM M) = meanv M := by
  unfold meanv
  exact Finset.sum_congr rfl fun k _ => by rw [px_plus_y_transpose]

lemma stdevSq_transpose {n : ℕ} (M : Mat n) :
    stdevSq (transposeM M) = stdevSq M := by
  unfold stdevSq
  rw [meanv_transpose]
  congr 1
  exact Finset.sum_congr rfl fun k _ => by rw [px_plus_y_transpose]

lemma cls_shade_transpose {n : ℕ} (M : Mat n) :
    cls_shade (transposeM M) = cls_shade M := by
  unfold cls_shade
  rw [ux_transpose, uy_transpose]
  unfold transposeM
  exact sum_transpose_weight2 M _ _ fun i j => by ring

lemma cls_prom_transpose {n : ℕ} (M : Mat n) :
    cls_prom (transposeM M) = cls_prom M := by
  unfold cls_prom
  rw [ux_transpose, uy_transpose]
  unfold transposeM
  exact sum_transpose_weight2 M _ _ fun i j => by ring

lemma corrEntry_transpose {n : ℕ} (M : Mat n) :
    corrEntry (transposeM M) = corrEntry M := by
  unfold corrEntry
  rw [vx_transpose, vy_transpose, ijMoment_transpose, ux_transpose,
    uy_transpose]
  by_cases h : vx M = 0 ∨ vy M = 0
  · rw [if_pos h.symm, if_pos h]
  · rw [if_neg (fun hc => h hc.symm), if_neg h,
      mul_comm (uy M) (ux M), mul_comm (vy M) (vx M)]

/-- C9: `create_haralick` is invariant under matrix transposition — all
nine entries coincide, every weight being symmetric in `(i, j)` and the
marginal statistics `ux, uy` (resp. `vx, vy`) swapping. -/
theorem create_haralick_transpose {n : ℕ} (M : Mat n)
    (hS : 0 < matrixSum M) :
    create_haralick (transposeM M) = create_haralick M := by
  unfold create_haralick
  rw [homo_transpose, asmv_transpose, contrastv_transpose, corrEntry_transpose,
    meanv_transpose, stdevSq_transpose, cls_shade_transpose, cls_prom_transpose]

/-- Witness for C9 at the (asymmetric) matrix `[[1,2],[3,4]]`. -/
theorem create_haralick_transpose_witness :
    0 < matrixSum ![![(1 : ℚ), 2], ![3, 4]] ∧
      create_haralick (transposeM ![![(1 : ℚ), 2], ![3, 4]]) =
        create_haralick ![![(1 : ℚ), 2], ![3, 4]] := by
  have h : 0 < matrixSum ![![(1 : ℚ), 2], ![3, 4]] := by
    norm_num [matrixSum, Fin.sum_univ_two]
  exact ⟨h, create_haralick_transpose _ h⟩

/-! ### Lemmas about the candidate scan and the batch loop -/

lemma mem_perms {D A : ℕ} (p : Fin D × Fin A) : p ∈ perms D A := by
  obtain ⟨d, a⟩ := p
  unfold perms
  exact List.mem_flatMap.mpr
    ⟨d, List.mem_finRange d, List.mem_map.mpr ⟨a, List.mem_finRange a, rfl⟩⟩

lemma perms_length {D A : ℕ} : (perms D A).length = D * A := by
  unfold perms
  simp [List.length_flatMap, List.length_finRange, Function.comp_def,
    List.map_const', List.sum_replicate, smul_eq_mul, mul_comm]

lemma perms_ne_nil {D A : ℕ} (hD : 0 < D) (hA : 0 < A) : perms D A ≠ [] := by
  intro h
  have h1 : (perms D A).length = D * A := perms_length
  rw [h] at h1
  have h2 : 0 < D * A := Nat.mul_pos hD hA
  exact absurd h1.symm (Nat.pos_iff_ne_zero.mp h2)

lemma argmax_foldl_isSome {D A : ℕ} (g : Grid D A) :
    ∀ (ps : List (Fin D × Fin A)) (q : Fin D × Fin A),
      (ps.foldl (argmaxStep g) (some q)).isSome := by
  intro ps
  induction ps with
  | nil => intro q; rfl
  | cons r ps ih =>
    intro q
    rw [List.foldl_cons]
    have h : ∃ q', argmaxStep g (some q) r = some q' := by
      unfold argmaxStep
      show ∃ q', (if g q.1 q.2 < g r.1 r.2 then some r else some q) = some q'
      by_cases hc : g q.1 q.2 < g r.1 r.2
      · exact ⟨r, if_pos hc⟩
      · exact ⟨q, if_neg hc⟩
    obtain ⟨q', hq'⟩ := h
    rw [hq']
    exact ih q'

lemma argGrid_isSome {D A : ℕ} (hD : 0 < D) (hA : 0 < A) (g : Grid D A) :
    (argGrid g).isSome := by
  unfold argGrid
  obtain ⟨p, ps, hp⟩ := List.exists_cons_of_ne_nil (perms_ne_nil hD hA)
  rw [hp, List.foldl_cons]
  have h0 : argmaxStep g none p = some p := rfl
  rw [h0]
  exact argmax_foldl_isSome g ps p

lemma scanStep_grid {α : Type*} {n D A : ℕ} (glcm : α → ℤ → ℤ → Mat n)
    (distances : Fin D → ℤ) (angles : Fin A → ℤ) (img : α)
    (acc : ScanAcc D A) (p : Fin D × Fin A) :
    (scanStep glcm distances angles img acc p).grid =
      writeCell acc.grid p
        (compute_chi_sum (glcm img (distances p.1) (angles p.2))) := by
  unfold scanStep
  split <;> rfl

lemma foldScan_grid {α : Type*} {n D A : ℕ} (glcm : α → ℤ → ℤ → Mat n)
    (distances : Fin D → ℤ) (angles : Fin A → ℤ) (img : α) :
    ∀ (ps : List (Fin D × Fin A)) (acc : ScanAcc D A) (d : Fin D) (a : Fin A),
      (ps.foldl (scanStep glcm distances angles img) acc).grid d a =
        if (d, a) ∈ ps then scoreGrid glcm distances angles img d a
        else acc.grid d a := by
  intro ps
  induction ps with
  | nil => intro acc d a; simp
  | cons p ps ih =>
    obtain ⟨pd, pa⟩ := p
    intro acc d a
    rw [List.foldl_cons, ih]
    simp only [scanStep_grid, writeCell]
    by_cases h1 : (d, a) ∈ ps
    · simp [h1]
    · by_cases h2 : d = pd ∧ a = pa
      · obtain ⟨rfl, rfl⟩ := h2
        simp [h1, scoreGrid]
      · simp [h1, h2, Prod.mk.injEq]

lemma foldScan_maxChi {α : Type*} {n D A : ℕ} (hD : 0 < D) (hA : 0 < A)
    (glcm : α → ℤ → ℤ → Mat n) (distances : Fin D → ℤ) (angles : Fin A → ℤ)
    (img : α) :
    ∀ (ps : List (Fin D × Fin A)) (acc : ScanAcc D A), ps ≠ [] →
      (ps.foldl (scanStep glcm distances angles img) acc).maxChi =
        argGrid ((ps.foldl (scanStep glcm distances angles img) acc).grid) := by
  intro ps
  induction ps with
  | nil => intro acc h; exact absurd rfl h
  | cons p ps ih =>
    intro acc _
    rw [List.foldl_cons]
    by_cases hps : ps = []
    · subst hps
      simp only [List.foldl_nil]
      unfold scanStep
      split
      · next m hm => rw [hm]
      · next hm =>
          have := argGrid_isSome hD hA
            (writeCell acc.grid p
              (compute_chi_sum (glcm img (distances p.1) (angles p.2))))
          rw [hm] at this
          exact absurd this (by simp)
    · exact ih _ hps

lemma foldScan_out_length {α : Type*} {n D A : ℕ} (hD : 0 < D) (hA : 0 < A)
    (glcm : α → ℤ → ℤ → Mat n) (distances : Fin D → ℤ) (angles : Fin A → ℤ)
    (img : α) :
    ∀ (ps : List (Fin D × Fin A)) (acc : ScanAcc D A),
      (ps.foldl (scanStep glcm distances angles img) acc).out.length =
        acc.out.length + ps.length := by
  intro ps
  induction ps with
  | nil => intro acc; simp
  | cons p ps ih =>
    intro acc
    rw [List.foldl_cons, ih]
    have hstep : (scanStep glcm distances angles img acc p).out.length =
        acc.out.length + 1 := by
      unfold scanStep
      split
      · simp
      · next hm =>
          have := argGrid_isSome hD hA
            (writeCell acc.grid p
              (compute_chi_sum (glcm img (distances p.1) (angles p.2))))
          rw [hm] at this
          exact absurd this (by simp)
    rw [hstep, List.length_cons]
    omega

lemma processPerms_grid {α : Type*} {n D A : ℕ} (glcm : α → ℤ → ℤ → Mat n)
    (distances : Fin D → ℤ) (angles : Fin A → ℤ) (img : α)
    (grid : Grid D A) (mc : Option (Fin D × Fin A)) :
    (processPerms glcm distances angles img grid mc).grid =
      scoreGrid glcm distances angles img := by
  funext d a
  unfold processPerms
  rw [foldScan_grid]
  simp [mem_perms]

lemma processPerms_maxChi {α : Type*} {n D A : ℕ} (hD : 0 < D) (hA : 0 < A)
    (glcm : α → ℤ → ℤ → Mat n) (distances : Fin D → ℤ) (angles : Fin A → ℤ)
    (img : α) (grid : Grid D A) (mc : Option (Fin D × Fin A)) :
    (processPerms glcm distances angles img grid mc).maxChi =
      bestIdx glcm distances angles img := by
  unfold processPerms bestIdx
  rw [foldScan_maxChi hD hA glcm distances angles img (perms D A) _
    (perms_ne_nil hD hA)]
  congr 1
  exact processPerms_grid glcm distances angles img grid mc

lemma processPerms_out_length {α : Type*} {n D A : ℕ} (hD : 0 < D)
    (hA : 0 < A) (glcm : α → ℤ → ℤ → Mat n) (distances : Fin D → ℤ)
    (angles : Fin A → ℤ) (img : α) (grid : Grid D A)
    (mc : Option (Fin D × Fin A)) :
    (processPerms glcm distances angles img grid mc).out.length = D * A := by
  unfold processPerms
  rw [foldScan_out_length hD hA]
  simp [perms_length]

lemma bestIdx_isSome {α : Type*} {n D A : ℕ} (hD : 0 < D) (hA : 0 < A)
    (glcm : α → ℤ → ℤ → Mat n) (distances : Fin D → ℤ) (angles : Fin A → ℤ)
    (img : α) : (bestIdx glcm distances angles img).isSome :=
  argGrid_isSome hD hA _

lemma runBatch_spec {α : Type*} {n D A : ℕ} (hD : 0 < D) (hA : 0 < A)
    (glcm glcmNorm : α → ℤ → ℤ → Mat n) (distances : Fin D → ℤ)
    (angles : Fin A → ℤ) :
    ∀ (imgs : List α) (grid : Grid D A) (mc : Option (Fin D × Fin A)),
      ∃ is, runBatch glcm glcmNorm distances angles grid mc imgs =
          some (imgs.map (optMat glcm glcmNorm distances angles), is,
            imgs.map fun im =>
              create_haralick (optMat glcm glcmNorm distances angles im)) ∧
        is.length = imgs.length * (D * A) := by
  intro imgs
  induction imgs with
  | nil => intro grid mc; exact ⟨[], rfl, by simp⟩
  | cons img rest ih =>
    intro grid mc
    obtain ⟨m, hm⟩ := Option.isSome_iff_exists.mp
      (bestIdx_isSome hD hA glcm distances angles img)
    obtain ⟨is, hrec, hlen⟩ :=
      ih (processPerms glcm distances angles img grid mc).grid (some m)
    refine ⟨(processPerms glcm distances angles img grid mc).out ++ is, ?_, ?_⟩
    · have hopt : optMat glcm glcmNorm distances angles img =
          glcmNorm img (distances m.1) (angles m.2) := by
        unfold optMat
        rw [hm]
      rw [runBatch, processPerms_maxChi hD hA, hm]
      dsimp only
      rw [hrec]
      dsimp only
      rw [List.map_cons, List.map_cons, ← hopt]
    · rw [List.length_append, hlen,
        processPerms_out_length hD hA glcm distances angles img grid mc,
        List.length_cons]
      ring

lemma foldScan_out_last {α : Type*} {n D A : ℕ} (hD : 0 < D) (hA : 0 < A)
    (glcm : α → ℤ → ℤ → Mat n) (distances : Fin D → ℤ) (angles : Fin A → ℤ)
    (img : α) :
    ∀ (ps : List (Fin D × Fin A)) (acc : ScanAcc D A), ps ≠ [] →
      ∃ m, (ps.foldl (scanStep glcm distances angles img) acc).maxChi = some m ∧
        (ps.foldl (scanStep glcm distances angles img) acc).out.getLast? =
          some (distances m.1, angles m.2) := by
  intro ps
  induction ps with
  | nil => intro acc h; exact absurd rfl h
  | cons p ps ih =>
    intro acc _
    rw [List.foldl_cons]
    by_cases hps : ps = []
    · subst hps
      simp only [List.foldl_nil]
      unfold scanStep
      split
      · next m hm => exact ⟨m, rfl, List.getLast?_concat _⟩
      · next hm =>
          have := argGrid_isSome hD hA
            (writeCell acc.grid p
              (compute_chi_sum (glcm img (distances p.1) (angles p.2))))
          rw [hm] at this
          exact absurd this (by simp)
    · exact ih _ hps

lemma processPerms_out_last {α : Type*} {n D A : ℕ} (hD : 0 < D) (hA : 0 < A)
    (glcm : α → ℤ → ℤ → Mat n) (distances : Fin D → ℤ) (angles : Fin A → ℤ)
    (img : α) (grid : Grid D A) (mc : Option (Fin D × Fin A))
    (m : Fin D × Fin A) (hm : bestIdx glcm distances angles img = some m) :
    (processPerms glcm distances angles img grid mc).out.getLast? =
      some (distances m.1, angles m.2) := by
  obtain ⟨m', hm', hlast⟩ := foldScan_out_last hD hA glcm distances angles img
    (perms D A) ⟨grid, mc, []⟩ (perms_ne_nil hD hA)
  have heq : (processPerms glcm distances angles img grid mc).maxChi =
      some m' := hm'
  rw [processPerms_maxChi hD hA, hm] at heq
  obtain rfl := Option.some.inj heq
  exact hlast

lemma runBatch_blocks {α : Type*} {n D A : ℕ} (hD : 0 < D) (hA : 0 < A)
    (glcm glcmNorm : α → ℤ → ℤ → Mat n) (distances : Fin D → ℤ)
    (angles : Fin A → ℤ) :
    ∀ (imgs : List α) (grid : Grid D A) (mc : Option (Fin D × Fin A)),
      ∃ blocks, runBatch glcm glcmNorm distances angles grid mc imgs =
          some (imgs.map (optMat glcm glcmNorm distances angles),
            blocks.flatten,
            imgs.map fun im =>
              create_haralick (optMat glcm glcmNorm distances angles im)) ∧
        List.Forall₂ (fun im b => b.length = D * A ∧ ∃ m,
          bestIdx glcm distances angles im = some m ∧
          b.getLast? = some (distances m.1, angles m.2) ∧
          optMat glcm glcmNorm distances angles im =
            glcmNorm im (distances m.1) (angles m.2)) imgs blocks := by
  intro imgs
  induction imgs with
  | nil => intro grid mc; exact ⟨[], rfl, List.Forall₂.nil⟩
  | cons img rest ih =>
    intro grid mc
    obtain ⟨m, hm⟩ := Option.isSome_iff_exists.mp
      (bestIdx_isSome hD hA glcm distances angles img)
    obtain ⟨blocks, hrec, hf⟩ :=
      ih (processPerms glcm distances angles img grid mc).grid (some m)
    have hopt : optMat glcm glcmNorm distances angles img =
        glcmNorm img (distances m.1) (angles m.2) := by
      unfold optMat
      rw [hm]
    refine ⟨(processPerms glcm distances angles img grid mc).out :: blocks,
      ?_, ?_⟩
    · rw [runBatch, processPerms_maxChi hD hA, hm]
      dsimp only
      rw [hrec]
      dsimp only
      rw [List.map_cons, List.map_cons, ← hopt, List.flatten_cons]
    · exact List.Forall₂.cons
        ⟨processPerms_out_length hD hA glcm distances angles img grid mc,
          m, hm,
          processPerms_out_last hD hA glcm distances angles img grid mc m hm,
          hopt⟩ hf

/-! ### Claim theorems about the batch orchestrator -/

/-- C4: with `N` images and non-empty distance/angle lists of lengths
`D` and `A`, the orchestrator succeeds and returns `N` matrices, `N`
Haralick vectors, and `N * D * A` offset pairs — one block of `D * A`
entries per image, the last entry of each image's block being exactly
the offset used to build that image's normalised matrix downstream. -/
theorem create_matrix_list_lengths {α : Type*} {n D A : ℕ}
    (glcm glcmNorm : α → ℤ → ℤ → Mat n) (distances : Fin D → ℤ)
    (angles : Fin A → ℤ) (imgs : List α) (hImgs : imgs ≠ [])
    (hD : 0 < D) (hA : 0 < A) :
    ∃ ms blocks hs,
      create_matrix_list glcm glcmNorm distances angles imgs =
        some (ms, List.flatten blocks, hs) ∧
      ms.length = imgs.length ∧ hs.length = imgs.length ∧
      (List.flatten blocks).length = imgs.length * (D * A) ∧
      List.Forall₂ (fun im b => b.length = D * A ∧ ∃ m,
        bestIdx glcm distances angles im = some m ∧
        b.getLast? = some (distances m.1, angles m.2) ∧
        optMat glcm glcmNorm distances angles im =
          glcmNorm im (distances m.1) (angles m.2)) imgs blocks := by
  obtain ⟨blocks, heq, hf⟩ := runBatch_blocks hD hA glcm glcmNorm distances
    angles imgs (fun _ _ => 0) none
  refine ⟨_, blocks, _, heq, by simp, by simp, ?_, hf⟩
  clear heq hImgs
  induction hf with
  | nil => simp
  | cons hab htail ih =>
      simp only [List.flatten_cons, List.length_append, List.length_cons, ih]
      rw [hab.1]
      ring

/-- Witness for C4: one image, one distance, one angle. -/
theorem create_matrix_list_lengths_witness :
    (([0] : List ℕ) ≠ [] ∧ 0 < 1 ∧ 0 < 1) ∧
      ∃ ms blocks hs,
        create_matrix_list (fun (_ : ℕ) _ _ => uniMat)
            (fun (_ : ℕ) _ _ => uniMat) ![1] ![0] [0] =
          some (ms, List.flatten blocks, hs) ∧
        ms.length = ([0] : List ℕ).length ∧
        hs.length = ([0] : List ℕ).length ∧
        (List.flatten blocks).length = ([0] : List ℕ).length * (1 * 1) ∧
        List.Forall₂ (fun im b => b.length = 1 * 1 ∧ ∃ m,
          bestIdx (fun (_ : ℕ) _ _ => uniMat) ![1] ![0] im = some m ∧
          b.getLast? = some (![1] m.1, ![0] m.2) ∧
          optMat (fun (_ : ℕ) _ _ => uniMat) (fun (_ : ℕ) _ _ => uniMat)
              ![1] ![0] im =
            (fun (_ : ℕ) _ _ => uniMat) im (![1] m.1) (![0] m.2))
          [0] blocks :=
  ⟨⟨by decide, by decide, by decide⟩,
    create_matrix_list_lengths (fun (_ : ℕ) _ _ => uniMat)
      (fun (_ : ℕ) _ _ => uniMat) ![1] ![0] [0] (by decide) (by decide)
      (by decide)⟩

/-- C5 (amended): the optimal matrix and the Haralick vector recorded
for each image are functions of that image alone — the batch output is
the image-wise map of the per-image Selector — and agree with the
output of running the image as a singleton batch.  (The intermediate
offset pairs appended to the inputs trace are NOT image-local; see the
counterexample.) -/
theorem batch_matrices_haralick_image_local {α : Type*} {n D A : ℕ}
    (glcm glcmNorm : α → ℤ → ℤ → Mat n) (distances : Fin D → ℤ)
    (angles : Fin A → ℤ) (imgs : List α) (hD : 0 < D) (hA : 0 < A) :
    (∃ is, create_matrix_list glcm glcmNorm distances angles imgs =
        some (imgs.map (optMat glcm glcmNorm distances angles), is,
          imgs.map fun im =>
            create_haralick (optMat glcm glcmNorm distances angles im))) ∧
    ∀ im : α, ∃ is1,
      create_matrix_list glcm glcmNorm distances angles [im] =
        some ([optMat glcm glcmNorm distances angles im], is1,
          [create_haralick (optMat glcm glcmNorm distances angles im)]) := by
  constructor
  · obtain ⟨is, heq, -⟩ := runBatch_spec hD hA glcm glcmNorm distances angles
      imgs (fun _ _ => 0) none
    exact ⟨is, heq⟩
  · intro im
    obtain ⟨is1, heq, -⟩ := runBatch_spec hD hA glcm glcmNorm distances angles
      [im] (fun _ _ => 0) none
    exact ⟨is1, by simpa using heq⟩

/-- Witness for C5's amended theorem at the concrete two-image batch. -/
theorem batch_matrices_haralick_image_local_witness :
    ((0 : ℕ) < 2 ∧ (0 : ℕ) < 1) ∧
      (∃ is, create_matrix_list cGlcm cGlcmN cDist cAng [0, 1] =
          some ([0, 1].map (optMat cGlcm cGlcmN cDist cAng), is,
            [0, 1].map fun im =>
              create_haralick (optMat cGlcm cGlcmN cDist cAng im))) :=
  ⟨⟨by decide, by decide⟩,
    (batch_matrices_haralick_image_local cGlcm cGlcmN cDist cAng [0, 1]
      (by decide) (by decide)).1⟩

lemma chi_uni : compute_chi_sum uniMat = 0 := by
  norm_num [compute_chi_sum, matrix_rc_totals, row_matrix, col_matrix,
    sumAxis0, sumAxis1, matrixSum, expected_values, uniMat, Fin.sum_univ_two]

lemma chi_diag5 : compute_chi_sum (diagMat 5) = 10 := by
  norm_num [compute_chi_sum, matrix_rc_totals, row_matrix, col_matrix,
    sumAxis0, sumAxis1, matrixSum, expected_values, diagMat, Fin.sum_univ_two]

lemma chi_diag52 : compute_chi_sum (diagMat (5 / 2)) = 5 := by
  norm_num [compute_chi_sum, matrix_rc_totals, row_matrix, col_matrix,
    sumAxis0, sumAxis1, matrixSum, expected_values, diagMat, Fin.sum_univ_two]

lemma chi_diag12 : compute_chi_sum (diagMat (1 / 2)) = 1 := by
  norm_num [compute_chi_sum, matrix_rc_totals, row_matrix, col_matrix,
    sumAxis0, sumAxis1, matrixSum, expected_values, diagMat, Fin.sum_univ_two]

/-- C5 (counterexample): the offset pairs appended for an image DO
depend on the images processed before it, because the score grid
`chisum` is allocated once and shared across the batch.  Image `1`
alone appends `[(1,0), (1,0)]`, but after image `0` (whose second
candidate scored 10, left in the shared grid) it appends
`[(2,0), (1,0)]` — its first intermediate argmax sees the stale 10. -/
theorem batch_offsets_depend_on_predecessors :
    Option.map (fun t => t.2.1)
        (create_matrix_list cGlcm cGlcmN cDist cAng [0, 1]) =
      some [((1 : ℤ), (0 : ℤ)), (2, 0), (2, 0), (1, 0)] ∧
    Option.map (fun t => t.2.1)
        (create_matrix_list cGlcm cGlcmN cDist cAng [1]) =
      some [((1 : ℤ), (0 : ℤ)), (1, 0)] ∧
    List.drop (1 * (2 * 1)) [((1 : ℤ), (0 : ℤ)), (2, 0), (2, 0), (1, 0)] ≠
      [((1 : ℤ), (0 : ℤ)), (1, 0)] := by
  refine ⟨?_, ?_, by decide⟩
  · norm_num [create_matrix_list, runBatch, processPerms, scanStep, argGrid,
      argmaxStep, writeCell, perms, List.finRange, List.range, List.range.loop,
      List.flatMap, cGlcm, cDist, cAng, chi_uni, chi_diag5, chi_diag52,
      chi_diag12, Fin.ext_iff]
  · norm_num [create_matrix_list, runBatch, processPerms, scanStep, argGrid,
      argmaxStep, writeCell, perms, List.finRange, List.range, List.range.loop,
      List.flatMap, cGlcm, cDist, cAng, chi_uni, chi_diag5, chi_diag52,
      chi_diag12, Fin.ext_iff]

lemma argmax_foldl_no_gt {D A : ℕ} (g : Grid D A) :
    ∀ (ps : List (Fin D × Fin A)) (q : Fin D × Fin A),
      (∀ p ∈ ps, ¬ g q.1 q.2 < g p.1 p.2) →
      ps.foldl (argmaxStep g) (some q) = some q := by
  intro ps
  induction ps with
  | nil => intro q _; rfl
  | cons r ps ih =>
    intro q hq
    rw [List.foldl_cons]
    have hstep : argmaxStep g (some q) r = some q := by
      unfold argmaxStep
      show (if g q.1 q.2 < g r.1 r.2 then some r else some q) = some q
      exact if_neg (hq r (List.mem_cons_self r ps))
    rw [hstep]
    exact ih q fun p hp => hq p (List.mem_cons_of_mem r hp)

lemma perms_head {D A : ℕ} (hD : 0 < D) (hA : 0 < A) :
    ∃ t, perms D A = ((⟨0, hD⟩ : Fin D), (⟨0, hA⟩ : Fin A)) :: t := by
  obtain ⟨d, rfl⟩ : ∃ d, D = d + 1 := ⟨D - 1, by omega⟩
  obtain ⟨a, rfl⟩ : ∃ a, A = a + 1 := ⟨A - 1, by omega⟩
  have h0D : (⟨0, hD⟩ : Fin (d + 1)) = 0 := by simp [Fin.ext_iff]
  have h0A : (⟨0, hA⟩ : Fin (a + 1)) = 0 := by simp [Fin.ext_iff]
  rw [h0D, h0A]
  unfold perms
  rw [List.finRange_succ_eq_map, List.finRange_succ_eq_map]
  exact ⟨_, rfl⟩

lemma argGrid_const {D A : ℕ} (hD : 0 < D) (hA : 0 < A) (g : Grid D A)
    (c : ℚ) (hg : ∀ d a, g d a = c) :
    argGrid g = some ((⟨0, hD⟩ : Fin D), (⟨0, hA⟩ : Fin A)) := by
  obtain ⟨t, ht⟩ := perms_head hD hA
  unfold argGrid
  rw [ht, List.foldl_cons]
  have h0 : argmaxStep g none (⟨0, hD⟩, ⟨0, hA⟩) = some (⟨0, hD⟩, ⟨0, hA⟩) :=
    rfl
  rw [h0]
  exact argmax_foldl_no_gt g t _ fun p _ => by rw [hg, hg]; exact lt_irrefl c

/-- C8: if every candidate offset of image `k` yields the same
chi-square score, the offset used to build that image's final
normalised matrix is the first candidate in scan order,
`(distances[0], angles[0])` — `np.argmax` returns the first occurrence
of the maximum. -/
theorem tie_break_first_candidate {α : Type*} {n D A : ℕ}
    (glcm glcmNorm : α → ℤ → ℤ → Mat n) (distances : Fin D → ℤ)
    (angles : Fin A → ℤ) (imgs : List α) (hD : 0 < D) (hA : 0 < A)
    (k : ℕ) (hk : k < imgs.length) (c : ℚ)
    (hc : ∀ (d : Fin D) (a : Fin A),
      compute_chi_sum (glcm (imgs.get ⟨k, hk⟩) (distances d) (angles a)) = c) :
    (∃ is, create_matrix_list glcm glcmNorm distances angles imgs =
        some (imgs.map (optMat glcm glcmNorm distances angles), is,
          imgs.map fun im =>
            create_haralick (optMat glcm glcmNorm distances angles im))) ∧
    optMat glcm glcmNorm distances angles (imgs.get ⟨k, hk⟩) =
      glcmNorm (imgs.get ⟨k, hk⟩) (distances ⟨0, hD⟩) (angles ⟨0, hA⟩) := by
  constructor
  · obtain ⟨is, heq, -⟩ := runBatch_spec hD hA glcm glcmNorm distances angles
      imgs (fun _ _ => 0) none
    exact ⟨is, heq⟩
  · have harg : bestIdx glcm distances angles (imgs.get ⟨k, hk⟩) =
        some ((⟨0, hD⟩ : Fin D), (⟨0, hA⟩ : Fin A)) :=
      argGrid_const hD hA _ c hc
    unfold optMat
    rw [harg]

/-- Witness for C8: two candidate distances, all scores 0 (uniform
slices), one image — the selected offset is `(distances[0], angles[0])`
(= `(1, 0)`). -/
theorem tie_break_first_candidate_witness :
    ((0 : ℕ) < 2 ∧ (0 : ℕ) < 1 ∧ (0 : ℕ) < 1 ∧
      (∀ (d : Fin 2) (a : Fin 1),
        compute_chi_sum ((fun (_ : ℕ) _ _ => uniMat) (([0] : List ℕ).get ⟨0, by decide⟩)
          (cDist d) (cAng a)) = 0)) ∧
      optMat (fun (_ : ℕ) _ _ => uniMat) cGlcmN cDist cAng
          (([0] : List ℕ).get ⟨0, by decide⟩) =
        cGlcmN (([0] : List ℕ).get ⟨0, by decide⟩) (cDist ⟨0, by decide⟩)
          (cAng ⟨0, by decide⟩) := by
  have hc : ∀ (d : Fin 2) (a : Fin 1),
      compute_chi_sum ((fun (_ : ℕ) _ _ => uniMat) (([0] : List ℕ).get ⟨0, by decide⟩)
        (cDist d) (cAng a)) = 0 := fun d a => chi_uni
  exact ⟨⟨by decide, by decide, by decide, hc⟩,
    (tie_break_first_candidate (fun (_ : ℕ) _ _ => uniMat) cGlcmN cDist cAng
      [0] (by decide) (by decide) 0 (by decide) 0 hc).2⟩

end TexNet



